import Mathlib

/-!
Verification development for the libtorrent sample: the tracker list
(`TrackerList` in `src/torrent/tracker_list.cc`) and the peer connection base
(`PeerConnectionBase`, second unit of the same sample file).

Trackers are modelled as records of the fields this unit reads and writes;
the tracker list is a `List Tracker`.  Iterators become indices (`Nat`,
with `l.length` playing the role of `end()`).  C++ functions that may throw
become `Except` values.
-/

namespace LibTorrent

/-- The tracker record, holding the fields of `tracker::Tracker` /
`TrackerState` that `tracker_list.cc` reads or writes.  `tid` stands in for
the object identity (the C++ pointer), `canRequestState` for
`can_request_state()`, and `failedTimeNext` / `successTimeNext` for the
`failed_time_next()` / `success_time_next()` accessors of `TrackerState`. -/
structure Tracker where
  tid : Nat
  group : Nat
  busy : Bool
  canRequestState : Bool
  failedCounter : Nat
  failedTimeNext : Nat
  successTimeNext : Nat
  successTimeLast : Nat
  successCounter : Nat
  failedTimeLast : Nat
  latestSumPeers : Nat
  latestNewPeers : Nat
deriving DecidableEq, Repr, Inhabited

/-- `TrackerList::begin_group(group)`: index of the first tracker `t` with
`group ≤ t->group()`; `l.length` when there is none (`end()`). -/
def beginGroup (l : List Tracker) (g : Nat) : Nat :=
  l.findIdx (fun t => decide (g ≤ t.group))

/-- Modelled from the spec: `end_group` is declared in `tracker_list.h`,
which is not part of the sample.  Per §4.8 `insert` "appends into the
group", so `end_group(g)` is the position just past the last tracker of
group `g`, i.e. the first index whose group exceeds `g` — which is
`begin_group(g + 1)`. -/
def endGroup (l : List Tracker) (g : Nat) : Nat :=
  beginGroup l (g + 1)

/-- `TrackerList::insert(group, tracker)`: sets the tracker's group and
inserts it at `end_group(group)`.  (The slot wiring and logging of the
source have no effect on the list shape.) -/
def insertTracker (l : List Tracker) (g : Nat) (t : Tracker) : List Tracker :=
  let t' := { t with group := g }
  l.take (endGroup l g) ++ t' :: l.drop (endGroup l g)

/-- Swap the elements at indices `i` and `j` (`std::swap(*first, *itr)` /
`std::iter_swap`). -/
def swapIdx (l : List Tracker) (i j : Nat) : List Tracker :=
  (l.set i (l.getD j default)).set j (l.getD i default)

/-- `TrackerList::promote(itr)`: swap the tracker at `i` with the first
tracker of its group.  (The source throws `internal_error` when
`begin_group` returns `end()`; for a valid index `i` that cannot happen
since the tracker at `i` itself satisfies the `begin_group` predicate.) -/
def promote (l : List Tracker) (i : Nat) : List Tracker :=
  swapIdx l (beginGroup l (l.getD i default).group) i

/-- `TrackerList::cycle_group(group)`: starting at `begin_group(group)`,
the source swaps each successive tracker of the same group with its
predecessor, which rotates the initial run of group-`group` trackers left
by one.  When the run is empty (no tracker of that exact group at
`begin_group`) the list is unchanged. -/
def cycleGroup (l : List Tracker) (g : Nat) : List Tracker :=
  let b := beginGroup l g
  match (l.drop b).takeWhile (fun t => t.group == g) with
  | [] => l
  | t :: run => l.take b ++ (run ++ [t]) ++ l.drop (b + (run.length + 1))

/-- `TrackerList::randomize_group_entries()`: shuffle each group segment
in place.  The shuffle's randomness is abstracted as a function `s` on
segments.  The source walks `[itr, end_group(itr->group))` segments; on a
group-sorted list that segment is exactly the leading run of equal
`group`, which is how the walk is written here. -/
def randomizeGroupEntries (s : List Tracker → List Tracker) :
    List Tracker → List Tracker
  | [] => []
  | t :: rest =>
    s (t :: rest.takeWhile (fun x => x.group == t.group)) ++
      randomizeGroupEntries s (rest.dropWhile (fun x => x.group == t.group))
termination_by l => l.length
decreasing_by
  simp only [List.length_cons]
  exact Nat.lt_succ_of_le (List.IsSuffix.length_le (List.dropWhile_suffix _))

/-- The operations of the tracker list that reorder or extend it
(claim C6 quantifies over sequences of these). -/
inductive TLOp where
  | ins (g : Nat) (t : Tracker)
  | prom (i : Nat)
  | cyc (g : Nat)
  | rand (s : List Tracker → List Tracker)

/-- Apply one tracker-list operation.  `promote` is only defined by the
source for a dereferenceable iterator, so an out-of-range index is a
no-op here. -/
def applyOp : TLOp → List Tracker → List Tracker
  | .ins g t, l => insertTracker l g t
  | .prom i, l => if i < l.length then promote l i else l
  | .cyc g, l => cycleGroup l g
  | .rand s, l => randomizeGroupEntries s l

/-- Apply a sequence of tracker-list operations, oldest first. -/
def applyOps : List TLOp → List Tracker → List Tracker
  | [], l => l
  | op :: ops, l => applyOps ops (applyOp op l)

/-- The grouped invariant of the tracker list: groups are nondecreasing
along the list (spec §3 invariant 7). -/
def Grouped (l : List Tracker) : Prop :=
  List.Pairwise (fun a b => a.group ≤ b.group) l

/-- A shuffler only permutes its segment (what `std::shuffle` guarantees). -/
def IsShuffler (s : List Tracker → List Tracker) : Prop :=
  ∀ seg : List Tracker, List.Perm (s seg) seg

/-- An operation is well-behaved when any embedded shuffler permutes. -/
def GoodOp : TLOp → Prop
  | .rand s => IsShuffler s
  | _ => True

/-- Errors raised by this unit (`torrent/exceptions.h`). -/
inductive Err where
  | internalError
  | communicationError
deriving DecidableEq, Repr

/-- The inner scan of `TrackerList::find_next_to_request`: walk the
trackers after the first requestable one (`rest`, starting at absolute
index `j`), carrying the current preferred index `p` and its
`failed_time_next` value `pftn`.  A requestable tracker with failures
replaces the preferred one when its `failed_time_next` is strictly
smaller; the first requestable tracker without failures ends the scan,
winning when its `success_time_next` is strictly smaller than the
preferred `failed_time_next`. -/
def fnrLoop : List Tracker → Nat → Nat → Nat → Nat
  | [], _, p, _ => p
  | t :: rest, j, p, pftn =>
    if t.canRequestState = false then fnrLoop rest (j + 1) p pftn
    else if t.failedCounter ≠ 0 then
      if t.failedTimeNext < pftn then fnrLoop rest (j + 1) j t.failedTimeNext
      else fnrLoop rest (j + 1) p pftn
    else if t.successTimeNext < pftn then j else p

/-- Index of the first element satisfying `q` (`std::find_if`, with
`none` for `end()`). -/
def firstIdx (q : Tracker → Bool) : List Tracker → Option Nat
  | [] => none
  | t :: rest => if q t then some 0 else (firstIdx q rest).map (· + 1)

/-- `TrackerList::find_next_to_request(itr)`, with the range `[itr, end)`
given as the list `l` and iterators as indices into it (`none` = `end()`).
The first requestable tracker is returned at once when it has no
failures; otherwise the scan of `fnrLoop` runs over the remainder. -/
def find_next_to_request (l : List Tracker) : Option Nat :=
  match firstIdx (fun t => t.canRequestState) l with
  | none => none
  | some i =>
    let t := l.getD i default
    if t.failedCounter = 0 then some i
    else some (fnrLoop (l.drop (i + 1)) (i + 1) i t.failedTimeNext)

/-- Tail of `std::unique`: drop elements equal to the previous kept one. -/
def eraseAdjDupFrom (prev : Nat) : List Nat → List Nat
  | [] => []
  | b :: rest =>
    if prev = b then eraseAdjDupFrom prev rest
    else b :: eraseAdjDupFrom b rest

/-- `std::unique` on a list: drop the later of each pair of adjacent
equal elements, keeping the first of each run. -/
def eraseAdjDup : List Nat → List Nat
  | [] => []
  | a :: rest => a :: eraseAdjDupFrom a rest

/-- `l->sort(); l->erase(std::unique(l->begin(), l->end()), l->end())` of
`receive_success`: sort the address list then drop adjacent duplicates.
Addresses are abstracted as naturals. -/
def processAddrs (addrs : List Nat) : List Nat :=
  eraseAdjDup (List.insertionSort (· ≤ ·) addrs)

/-- `TrackerList::receive_success(tracker, l)`.  The tracker is given by
its index `i` (`find(tracker)` returning `end()` is `i ≥ l.length`);
`slot` is `m_slot_success`, `now` is `cachedTime.seconds()`.  Promotes the
tracker (which moves it to `begin_group` of its group), sorts and
de-duplicates the address list, updates the success statistics, and — when
the success slot is set — stores its return value in `latest_new_peers`. -/
def receive_success (l : List Tracker) (i : Nat) (addrs : List Nat)
    (slot : Option (List Nat → Nat)) (now : Nat) :
    Except Err (List Tracker) :=
  if i < l.length then
    if (l.getD i default).busy then .error .internalError
    else
      let b := beginGroup l (l.getD i default).group
      let l1 := swapIdx l b i
      let peers := processAddrs addrs
      let t1 := l1.getD b default
      let l2 := l1.set b { t1 with
        successTimeLast := now,
        successCounter := t1.successCounter + 1,
        failedCounter := 0,
        latestSumPeers := peers.length }
      match slot with
      | none => .ok l2
      | some f =>
        let t2 := l2.getD b default
        .ok (l2.set b { t2 with latestNewPeers := f peers })
  else .error .internalError

/-! ## Peer connection base -/

/-- A piece slice `(index, offset, length)` (`Piece` of the source). -/
structure Piece where
  index : Nat
  offset : Nat
  length : Nat
deriving DecidableEq, Repr, Inhabited

/-- The up-direction state of a peer connection that
`read_request_piece` / `write_prepare_piece` touch: whether we choke the
remote (`m_up->choked()`), the queued requests (`m_sendList`), and the
outgoing piece (`m_upPiece`). -/
structure PeerUpState where
  upChoked : Bool
  sendList : List Piece
  upPiece : Piece
deriving DecidableEq, Repr, Inhabited

/-- `PeerConnectionBase::read_request_piece(p)`: the request is ignored —
with no error of any kind — when we are choking the remote, when it is
already queued, or when its length exceeds `1 << 17`; otherwise it is
appended to the send list.  (`write_insert_poll_safe` is poller
bookkeeping with no effect on this state.) -/
def read_request_piece (st : PeerUpState) (p : Piece) :
    Except Err PeerUpState :=
  if st.upChoked || st.sendList.contains p || decide (p.length > 1 <<< 17) then
    .ok st
  else
    .ok { st with sendList := st.sendList ++ [p] }

/-- `PeerConnectionBase::read_cancel_piece(p)`: drop the first queued copy
of `p`, if any. -/
def read_cancel_piece (st : PeerUpState) (p : Piece) : PeerUpState :=
  { st with sendList := st.sendList.erase p }

/-- `PeerConnectionBase::write_prepare_piece()`: pop the head of the send
list into `m_upPiece`; raise `communication_error` when the piece is not a
valid piece of the download or we do not have its chunk.  `validPiece`
stands for `content()->is_valid_piece`, `hasChunk` for
`content()->has_chunk`.  (The source calls `front()`/`pop_front()` on the
send list, defined only when it is non-empty; the empty case is mapped to
`internal_error` here.) -/
def write_prepare_piece (validPiece : Piece → Bool) (hasChunk : Nat → Bool)
    (st : PeerUpState) : Except Err (PeerUpState × Piece) :=
  match st.sendList with
  | [] => .error .internalError
  | p :: rest =>
    if !validPiece p || !hasChunk p.index then .error .communicationError
    else .ok ({ st with upPiece := p, sendList := rest }, p)

/-- A pinned chunk handle (`ChunkHandle`): validity flag, chunk index, and
the error number recorded on a failed pin (`error_number()`). -/
structure ChunkHandle where
  valid : Bool
  index : Nat
  errno : Nat
deriving DecidableEq, Repr, Inhabited

/-- Errors of the chunk-loading paths. -/
inductive ChunkError where
  | internalErr
  | storageErr (errno : Nat)
deriving DecidableEq, Repr

/-- The chunk-related state of a peer connection. -/
structure ChunkIOState where
  downChunk : ChunkHandle
  upChunk : ChunkHandle
  downPiece : Piece
  upPiece : Piece
deriving DecidableEq, Repr, Inhabited

/-- `PeerConnectionBase::load_down_chunk(p)`: record the piece, check its
validity (`internal_error` on a bad piece), reuse a matching pinned chunk,
else pin the piece's chunk writable; on a failed pin the `storage_error`
carries the *new down handle's* error number. -/
def load_down_chunk (get : Nat → Bool → ChunkHandle) (validPiece : Piece → Bool)
    (st : ChunkIOState) (p : Piece) : Except ChunkError ChunkIOState :=
  let st0 := { st with downPiece := p }
  if !validPiece p then .error .internalErr
  else if st0.downChunk.valid && st0.downChunk.index == p.index then .ok st0
  else
    let st1 := { st0 with downChunk := get p.index true }
    if !st1.downChunk.valid then .error (.storageErr st1.downChunk.errno)
    else .ok st1

/-- `PeerConnectionBase::load_up_chunk()`: reuse a matching pinned chunk,
else pin `m_upPiece`'s chunk read-only; on a failed pin the source builds
the `storage_error` from `m_downChunk.error_number()` — the *down* chunk
handle — not from the up chunk handle whose pin failed. -/
def load_up_chunk (get : Nat → Bool → ChunkHandle) (st : ChunkIOState) :
    Except ChunkError ChunkIOState :=
  if st.upChunk.valid && st.upChunk.index == st.upPiece.index then .ok st
  else
    let st1 := { st with upChunk := get st.upPiece.index false }
    if !st1.upChunk.valid then .error (.storageErr st.downChunk.errno)
    else .ok st1

/-- Calls a peer connection makes into the choke manager. -/
inductive ChokeCall where
  | setInterested
  | setNotInterested
deriving DecidableEq, Repr

/-- The state read by `set_snubbed`: the snub flag and whether the remote
peer is interested in us (`m_down->interested()`). -/
structure SnubState where
  snubbed : Bool
  downInterested : Bool
deriving DecidableEq, Repr, Inhabited

/-- Modelled from the spec: `is_upload_wanted` is declared in
`peer_connection_base.h`, which is not part of the sample.  Per the
spec's snub-flag description ("suppresses our interest without dropping
the connection") and its uses in `set_snubbed` /
`set_remote_interested` / `set_remote_not_interested`, upload to the peer
is wanted when the remote is interested and the peer is not snubbed. -/
def is_upload_wanted (st : SnubState) : Bool :=
  st.downInterested && !st.snubbed

/-- `PeerConnectionBase::set_snubbed(v)`: no-op when the flag already has
value `v`; otherwise update the flag and consult the choke manager —
`set_not_interested` on entering the snubbed state if upload was wanted,
`set_interested` on leaving it if upload is now wanted.  The returned
list records the choke-manager calls made. -/
def set_snubbed (st : SnubState) (v : Bool) : SnubState × List ChokeCall :=
  if v == st.snubbed then (st, [])
  else
    let wasUploadWanted := is_upload_wanted st
    let st' := { st with snubbed := v }
    if v then
      (st', if wasUploadWanted then [.setNotInterested] else [])
    else
      (st', if is_upload_wanted st' then [.setInterested] else [])

/-- The state read by `should_request`: whether the remote chokes us
(`m_down->choked()`), whether we are interested (`m_up->interested()`),
the endgame flag, the stall counter `m_downStall`, and the download's
aggregate rate `m_download->down_rate()->rate()` in bytes/second. -/
structure ShouldReqState where
  downChoked : Bool
  upInterested : Bool
  endgame : Bool
  downStall : Nat
  downRate : Nat
deriving DecidableEq, Repr, Inhabited

/-- `PeerConnectionBase::should_request()`. -/
def should_request (st : ShouldReqState) : Bool :=
  if st.downChoked || !st.upInterested then false
  else if !st.endgame then true
  else decide (st.downStall ≤ 1) || decide (st.downRate < 10 <<< 10)

/-- The state written by `receive_choke`: the up-direction choke flag
(`m_up->choked()`), `m_sendChoked`, and `m_timeLastChoked`. -/
structure UpChokeState where
  upChoked : Bool
  sendChoked : Bool
  timeLastChoked : Nat
deriving DecidableEq, Repr, Inhabited

/-- `PeerConnectionBase::receive_choke(v)`: `internal_error` when `v`
equals the current up-choke state; otherwise set the send-choked flag,
the up-choke state, and the choke timestamp.  (`write_insert_poll_safe`
is poller bookkeeping with no effect on this state.) -/
def receive_choke (st : UpChokeState) (v : Bool) (now : Nat) :
    Except Err UpChokeState :=
  if v == st.upChoked then .error .internalError
  else .ok { upChoked := v, sendChoked := true, timeLastChoked := now }

/-- `TrackerList::insert_url`'s scheme dispatch, over URLs as character
lists.  `strncmp(prefix, url, n) == 0` is prefix comparison. -/
def strPrefixEq : List Char → List Char → Bool
  | [], _ => true
  | _ :: _, [] => false
  | c :: cs, d :: ds => c == d && strPrefixEq cs ds

/-- The tracker worker kinds `insert_url` can construct. -/
inductive TrackerProto where
  | http
  | udp
  | dht
deriving DecidableEq, Repr

/-- `input_error` of `torrent/exceptions.h`. -/
inductive InputError where
  | inputError
deriving DecidableEq, Repr

/-- `TrackerList::insert_url(group, url, extra_tracker)`'s protocol
selection and error behaviour: `some proto` means a tracker of that kind
is inserted into the group, `none` means the call returned without
inserting; `dhtAllowed` is `TrackerDht::is_allowed()`.  A URL matching no
protocol throws `input_error` only when `extra_tracker` is set, and
otherwise just logs and returns. -/
def insert_url (dhtAllowed : Bool) (url : List Char) (extra : Bool) :
    Except InputError (Option TrackerProto) :=
  if strPrefixEq "http://".toList url || strPrefixEq "https://".toList url then
    .ok (some .http)
  else if strPrefixEq "udp://".toList url then
    .ok (some .udp)
  else if strPrefixEq "dht://".toList url && dhtAllowed then
    .ok (some .dht)
  else if extra then
    .error .inputError
  else
    .ok none

/-- A URL's scheme matches one of the supported tracker protocols:
`http://`, `https://`, `udp://`, or `dht://` when the DHT is allowed. -/
def schemeSupported (dhtAllowed : Bool) (url : List Char) : Bool :=
  strPrefixEq "http://".toList url || strPrefixEq "https://".toList url ||
    strPrefixEq "udp://".toList url ||
    (strPrefixEq "dht://".toList url && dhtAllowed)

/-- A chunk list whose every pin fails with error number 42
(for exercising the chunk-loading error paths). -/
def c4Get : Nat → Bool → ChunkHandle :=
  fun _ _ => { valid := false, index := 0, errno := 42 }

/-- A connection state whose down chunk is pinned with recorded error
number 7 and whose up chunk does not match the outgoing piece, so that
`load_up_chunk` must pin a fresh up chunk. -/
def c4St : ChunkIOState :=
  { downChunk := { valid := true, index := 3, errno := 7 },
    upChunk := { valid := false, index := 0, errno := 0 },
    downPiece := default,
    upPiece := { index := 1, offset := 0, length := 16384 } }

/-- The trackers of `fnrLoop`'s scan region: requestable, with failures,
and strictly before the scan's stopping point (the first requestable
tracker without failures), when that point exists.  Indices are relative
to the scanned remainder `rest`. -/
def fnrRegion (rest : List Tracker) (k : Nat) : Prop :=
  k < rest.length ∧ (rest.getD k default).canRequestState = true ∧
    (rest.getD k default).failedCounter ≠ 0 ∧
    ∀ b, firstIdx (fun t => t.canRequestState && t.failedCounter == 0) rest =
          some b → k < b

/-- Declarative characterisation of `fnrLoop rest j p pftn = r`, where
`p` is the incoming preferred index and `pftn` its `failed_time_next`:
either the preferred tracker survives (nothing in the scan region beats
`pftn`, and the stopping tracker — if any — does not beat it either), or
a failed requestable tracker of the region with the least
`failed_time_next` (earliest on ties) wins, or the first requestable
tracker without failures wins because its `success_time_next` beats every
`failed_time_next` in sight. -/
def FnrLoopInv (rest : List Tracker) (j p pftn r : Nat) : Prop :=
  (r = p ∧
     (∀ k, fnrRegion rest k → pftn ≤ (rest.getD k default).failedTimeNext) ∧
     (∀ b, firstIdx (fun t => t.canRequestState && t.failedCounter == 0) rest =
             some b →
        ¬ (rest.getD b default).successTimeNext < pftn))
  ∨ (∃ k, fnrRegion rest k ∧ r = j + k ∧
       (rest.getD k default).failedTimeNext < pftn ∧
       (∀ k', fnrRegion rest k' →
          (rest.getD k default).failedTimeNext ≤
            (rest.getD k' default).failedTimeNext) ∧
       (∀ k', k' < k → fnrRegion rest k' →
          (rest.getD k default).failedTimeNext <
            (rest.getD k' default).failedTimeNext) ∧
       (∀ b, firstIdx (fun t => t.canRequestState && t.failedCounter == 0) rest =
               some b →
          ¬ (rest.getD b default).successTimeNext <
              (rest.getD k default).failedTimeNext))
  ∨ (∃ b, firstIdx (fun t => t.canRequestState && t.failedCounter == 0) rest =
            some b ∧
       r = j + b ∧
       (rest.getD b default).successTimeNext < pftn ∧
       (∀ k, fnrRegion rest k →
          (rest.getD b default).successTimeNext <
            (rest.getD k default).failedTimeNext))

/-- The operation sequence used to witness C6. -/
def c6Ops : List TLOp :=
  [.ins 1 default, .ins 0 default, .prom 1, .cyc 0]

/-- A two-tracker single-group list, used to witness C9. -/
def c9L : List Tracker :=
  [{ (default : Tracker) with tid := 1 }, { (default : Tracker) with tid := 2 }]

/-- Two requestable trackers without failures whose `success_time_next`
are 100 and 10: the claimed earliest-`success_time_next` rule would pick
the second, the code returns the first. -/
def c1CtrL : List Tracker :=
  [{ (default : Tracker) with canRequestState := true, successTimeNext := 100 },
   { (default : Tracker) with canRequestState := true, successTimeNext := 10 }]

/-- A failed requestable tracker followed by a never-failed requestable
one whose `success_time_next` beats the failed tracker's
`failed_time_next`. -/
def c1L : List Tracker :=
  [{ (default : Tracker) with
      canRequestState := true, failedCounter := 1, failedTimeNext := 100 },
   { (default : Tracker) with canRequestState := true, successTimeNext := 50 }]

end LibTorrent

deriving instance DecidableEq for Except
namespace LibTorrent

/-! ## Claim C8 -/

/-- C8: `should_request()` returns true iff the remote has not choked us
and we are interested, and in addition the download is not in endgame, or
the peer's stall count is at most 1, or the aggregate download rate is
below 10 KiB/s. -/
theorem C8_should_request_iff (st : ShouldReqState) :
    should_request st = true ↔
      st.downChoked = false ∧ st.upInterested = true ∧
        (st.endgame = false ∨ st.downStall ≤ 1 ∨ st.downRate < 10 * 1024) := by
  rcases st with ⟨dc, ui, eg, ds, dr⟩
  cases dc <;> cases ui <;> cases eg <;>
    simp [should_request, Nat.shiftLeft_eq]

/-! ## Claim C10 -/

/-- C10: `receive_choke(v)` raises `internal_error` when `v` equals the
current up-choke state; when `v` differs, the error branch is not taken
and the call sets the up-choke state to `v`, sets the send-choked flag,
and records the choke timestamp. -/
theorem C10_receive_choke_spec (st : UpChokeState) (v : Bool) (now : Nat) :
    (v = st.upChoked → receive_choke st v now = .error .internalError) ∧
    (v ≠ st.upChoked →
      receive_choke st v now =
        .ok { upChoked := v, sendChoked := true, timeLastChoked := now }) := by
  constructor <;> intro h <;> simp [receive_choke, h]

/-- Witness for C10 at a concrete unchoked state. -/
theorem C10_receive_choke_spec_witness :
    receive_choke { upChoked := false, sendChoked := false, timeLastChoked := 0 }
        true 5 =
      .ok { upChoked := true, sendChoked := true, timeLastChoked := 5 } :=
  (C10_receive_choke_spec
    { upChoked := false, sendChoked := false, timeLastChoked := 0 } true 5).2
    (by decide)

/-! ## Claim C4 -/

/-- C4: when the pin of the outgoing chunk fails, `load_up_chunk` builds
its `storage_error` from the *down* chunk handle's error field (7 here),
not from the failed up chunk handle's own error field (42 here) — the
source reads `m_downChunk.error_number()` on the up path. -/
theorem C4_load_up_chunk_reports_down_error :
    load_up_chunk c4Get c4St = .error (.storageErr 7) ∧
    (c4Get c4St.upPiece.index false).errno = 42 ∧
    c4St.downChunk.errno = 7 ∧ (7 : Nat) ≠ 42 := by decide

/-! ## Claim C5 -/

/-- C5 as stated is false: a URL with an unsupported scheme makes
`insert_url` signal `input_error` only when `extra_tracker` is set; with
the flag clear the call logs and returns without error. -/
theorem C5_counterexample :
    ¬ (∀ (dht : Bool) (url : List Char) (extra : Bool),
        schemeSupported dht url = false →
        insert_url dht url extra = .error .inputError) := by
  intro h
  exact absurd (h false "ftp://x".toList false (by decide)) (by decide)

/-- C5 amended: for a URL whose scheme matches no supported tracker
protocol, `insert_url` inserts no tracker; it signals `input_error` when
`extra_tracker` is set and returns silently otherwise. -/
theorem C5_insert_url_unsupported (dht : Bool) (url : List Char) (extra : Bool)
    (h : schemeSupported dht url = false) :
    insert_url dht url extra =
      if extra then .error .inputError else .ok none := by
  simp only [schemeSupported, Bool.or_eq_false_iff, Bool.and_eq_false_iff] at h
  obtain ⟨⟨⟨h1, h2⟩, h3⟩, h4⟩ := h
  rcases h4 with h4 | h4 <;>
    simp only [insert_url, h1, h2, h3, h4, Bool.or_self, Bool.false_and,
      Bool.and_false, Bool.false_or, if_false] <;> simp

/-- Witness for the amended C5 at `ftp://x` with and without the flag. -/
theorem C5_insert_url_unsupported_witness :
    insert_url false "ftp://x".toList true = .error .inputError ∧
    insert_url false "ftp://x".toList false = .ok none :=
  ⟨by have := C5_insert_url_unsupported false "ftp://x".toList true (by decide)
      simpa using this,
   by have := C5_insert_url_unsupported false "ftp://x".toList false (by decide)
      simpa using this⟩

/-! ## Claim C2 -/

/-- C2 as stated is false: a request whose length exceeds `2^17` is not
rejected as a `communication_error` by `read_request_piece`; it is
silently ignored. -/
theorem C2_counterexample :
    ¬ (∀ (st : PeerUpState) (p : Piece), 1 <<< 17 < p.length →
        read_request_piece st p = .error .communicationError) := by
  intro h
  exact absurd
    (h { upChoked := false, sendList := [], upPiece := default }
       { index := 0, offset := 0, length := 131073 } (by decide))
    (by decide)

/-- C2 amended: `read_request_piece` never raises an error — it silently
ignores the request when we are choking the remote, when the request is
already queued, or when its length exceeds `2^17`, and otherwise appends
it to the send list.  The have-the-piece validation happens later: when
`write_prepare_piece` pops a queued request naming a piece that is
invalid or whose chunk we do not have, it raises `communication_error`,
and otherwise stages the piece for writing. -/
theorem C2_request_handling (st : PeerUpState) (p : Piece) :
    (st.upChoked = true ∨ p ∈ st.sendList ∨ 1 <<< 17 < p.length →
       read_request_piece st p = .ok st) ∧
    (st.upChoked = false → p ∉ st.sendList → p.length ≤ 1 <<< 17 →
       read_request_piece st p = .ok { st with sendList := st.sendList ++ [p] }) ∧
    (∀ (validPiece : Piece → Bool) (hasChunk : Nat → Bool) (q : Piece)
        (rest : List Piece), st.sendList = q :: rest →
      (validPiece q = false ∨ hasChunk q.index = false →
        write_prepare_piece validPiece hasChunk st = .error .communicationError) ∧
      (validPiece q = true → hasChunk q.index = true →
        write_prepare_piece validPiece hasChunk st =
          .ok ({ st with upPiece := q, sendList := rest }, q))) := by
  refine ⟨?_, ?_, ?_⟩
  · intro h
    have hc : (st.upChoked || st.sendList.contains p ||
        decide (p.length > 1 <<< 17)) = true := by
      rcases h with h | h | h
      · simp [h]
      · simp [List.elem_iff, h]
      · have h' : (131072 : Nat) < p.length := by simpa using h
        simp [h']
    unfold read_request_piece
    rw [hc]
    simp
  · intro h1 h2 h3
    have hc : (st.upChoked || st.sendList.contains p ||
        decide (p.length > 1 <<< 17)) = false := by
      simp [h1, List.elem_iff, h2, Nat.not_lt]
      exact h3
    unfold read_request_piece
    rw [hc]
    simp
  · intro validPiece hasChunk q rest hq
    constructor
    · rintro (h | h) <;> simp [write_prepare_piece, hq, h]
    · intro h1 h2
      simp [write_prepare_piece, hq, h1, h2]

/-- Witness for the amended C2: a fresh small request is queued, and a
queued request for a piece we do not have raises `communication_error`. -/
theorem C2_request_handling_witness :
    read_request_piece { upChoked := false, sendList := [], upPiece := default }
        { index := 2, offset := 0, length := 16384 } =
      .ok { upChoked := false, sendList := [{ index := 2, offset := 0, length := 16384 }],
            upPiece := default } ∧
    write_prepare_piece (fun _ => true) (fun _ => false)
        { upChoked := false, sendList := [{ index := 2, offset := 0, length := 16384 }],
          upPiece := default } =
      .error .communicationError :=
  ⟨by
    have := (C2_request_handling
      { upChoked := false, sendList := [], upPiece := default }
      { index := 2, offset := 0, length := 16384 }).2.1
      (by decide) (by decide) (by decide)
    simpa using this,
   by
    have := ((C2_request_handling
      { upChoked := false, sendList := [{ index := 2, offset := 0, length := 16384 }],
        upPiece := default }
      { index := 2, offset := 0, length := 16384 }).2.2
      (fun _ => true) (fun _ => false)
      { index := 2, offset := 0, length := 16384 } [] rfl).1 (Or.inr rfl)
    simpa using this⟩

/-! ## Claim C7 -/

/-- C7 as stated is false: toggling the snub flag consults the choke
manager only when upload to the peer was (or becomes) wanted; when the
remote peer is not interested, the transition updates the flag without
any choke-manager call. -/
theorem C7_counterexample :
    ¬ (∀ (st : SnubState) (v : Bool), v ≠ st.snubbed →
        (set_snubbed st v).2 =
          [if v then ChokeCall.setNotInterested else ChokeCall.setInterested]) := by
  intro h
  exact absurd
    (h { snubbed := false, downInterested := false } true (by decide))
    (by decide)

/-- C7 amended: `set_snubbed(v)` with `v` equal to the current flag
changes nothing and makes no choke-manager call; with `v` different it
updates the flag and consults the choke manager exactly once if the
remote peer is interested (`set_not_interested` on entering the snubbed
state, `set_interested` on leaving it), and not at all otherwise. -/
theorem C7_set_snubbed_spec (st : SnubState) (v : Bool) :
    (v = st.snubbed → set_snubbed st v = (st, [])) ∧
    (v ≠ st.snubbed →
      (set_snubbed st v).1 = { st with snubbed := v } ∧
      (set_snubbed st v).2 =
        if st.downInterested then
          [if v then ChokeCall.setNotInterested else ChokeCall.setInterested]
        else []) := by
  rcases st with ⟨s, d⟩
  cases s <;> cases d <;> cases v <;>
    simp [set_snubbed, is_upload_wanted] <;> intro h <;> simp at h

/-- Witness for the amended C7: entering the snubbed state with an
interested remote consults the choke manager once. -/
theorem C7_set_snubbed_spec_witness :
    set_snubbed { snubbed := false, downInterested := true } true =
      ({ snubbed := true, downInterested := true }, [ChokeCall.setNotInterested]) := by
  have := (C7_set_snubbed_spec { snubbed := false, downInterested := true } true).2
    (by decide)
  obtain ⟨h1, h2⟩ := this
  simp at h2
  exact Prod.ext h1 h2

end LibTorrent
namespace LibTorrent

/-! ## Supporting lemmas: the grouped invariant -/

theorem take_findIdx_pred_false {q : Tracker → Bool} {l : List Tracker}
    {x : Tracker} (hx : x ∈ l.take (l.findIdx q)) : q x = false := by
  induction l with
  | nil => simp at hx
  | cons a t ih =>
    rw [List.findIdx_cons] at hx
    by_cases ha : q a
    · simp [ha] at hx
    · simp only [Bool.not_eq_true] at ha
      simp only [ha, cond_false, List.take_succ_cons, List.mem_cons] at hx
      rcases hx with rfl | hx
      · exact ha
      · exact ih hx

theorem findIdx_le_of_pred {q : Tracker → Bool} {l : List Tracker} {i : Nat}
    (hi : i < l.length) (h : q (l.getD i default) = true) : l.findIdx q ≤ i := by
  induction l generalizing i with
  | nil => simp at hi
  | cons a t ih =>
    rw [List.findIdx_cons]
    cases i with
    | zero =>
      simp only [List.getD_cons_zero] at h
      simp [h]
    | succ j =>
      by_cases ha : q a
      · simp [ha]
      · simp only [Bool.not_eq_true] at ha
        simp only [ha, cond_false]
        have := ih (by simpa using hi) (by simpa using h)
        omega

theorem findIdx_pred_true {q : Tracker → Bool} {l : List Tracker}
    (h : l.findIdx q < l.length) : q (l.getD (l.findIdx q) default) = true := by
  induction l with
  | nil => simp at h
  | cons a t ih =>
    rw [List.findIdx_cons]
    by_cases ha : q a
    · simp [ha]
    · simp only [Bool.not_eq_true] at ha
      rw [List.findIdx_cons, ha, cond_false] at h
      simp only [ha, cond_false, List.getD_cons_succ]
      exact ih (by simpa using h)

theorem grouped_map {l : List Tracker} :
    Grouped l ↔ (l.map fun t => t.group).Pairwise (· ≤ ·) := by
  rw [Grouped, List.pairwise_map]

theorem grouped_of_map_eq {l l' : List Tracker}
    (h : l.map (fun t => t.group) = l'.map (fun t => t.group))
    (hl : Grouped l) : Grouped l' := by
  rw [grouped_map] at hl ⊢
  rwa [h] at hl

theorem grouped_getD_mono {l : List Tracker} (hl : Grouped l) {i j : Nat}
    (hij : i ≤ j) (hj : j < l.length) :
    (l.getD i default).group ≤ (l.getD j default).group := by
  rcases Nat.eq_or_lt_of_le hij with rfl | hlt
  · exact le_refl _
  · have hi : i < l.length := Nat.lt_trans hlt hj
    rw [List.getD_eq_getElem _ _ hi, List.getD_eq_getElem _ _ hj]
    exact List.pairwise_iff_getElem.mp hl i j hi hj hlt

theorem mem_take_beginGroup_lt {l : List Tracker} {c : Nat} {x : Tracker}
    (hx : x ∈ l.take (beginGroup l c)) : x.group < c := by
  have := take_findIdx_pred_false (q := fun t => decide (c ≤ t.group)) hx
  simpa using this

theorem mem_drop_beginGroup_le {l : List Tracker} (hl : Grouped l) {c : Nat}
    {x : Tracker} (hx : x ∈ l.drop (beginGroup l c)) : c ≤ x.group := by
  induction l with
  | nil => simp at hx
  | cons a t ih =>
    rw [beginGroup, List.findIdx_cons] at hx
    by_cases ha : c ≤ a.group
    · simp only [decide_eq_true ha, cond_true, List.drop_zero] at hx
      rcases List.mem_cons.mp hx with rfl | hx
      · exact ha
      · exact le_trans ha ((List.pairwise_cons.mp hl).1 x hx)
    · simp only [decide_eq_false ha, cond_false, List.drop_succ_cons] at hx
      exact ih (List.pairwise_cons.mp hl).2 hx

theorem beginGroup_le {l : List Tracker} {i : Nat} (hi : i < l.length) :
    beginGroup l (l.getD i default).group ≤ i :=
  findIdx_le_of_pred hi (by simp)

theorem insertTracker_grouped {l : List Tracker} (hl : Grouped l)
    (g : Nat) (t : Tracker) : Grouped (insertTracker l g t) := by
  have hsplit := List.take_append_drop (endGroup l g) l
  rw [insertTracker, Grouped, List.pairwise_append]
  refine ⟨?_, ?_, ?_⟩
  · exact hl.sublist (List.take_sublist _ _)
  · rw [List.pairwise_cons]
    refine ⟨fun x hx => ?_, hl.sublist (List.drop_sublist _ _)⟩
    have := mem_drop_beginGroup_le hl (c := g + 1) hx
    simpa using Nat.le_of_succ_le this
  · intro a ha b hb
    have ha' : a.group < g + 1 := mem_take_beginGroup_lt ha
    rcases List.mem_cons.mp hb with rfl | hb
    · simpa using Nat.lt_succ_iff.mp ha'
    · have := mem_drop_beginGroup_le hl (c := g + 1) hb
      omega

theorem set_getD_self' {α : Type} [Inhabited α] {l : List α} {i : Nat} {v : α}
    (h : l.getD i default = v) : l.set i v = l := by
  induction l generalizing i with
  | nil => simp
  | cons a t ih =>
    cases i with
    | zero => simp_all
    | succ j =>
      simp only [List.getD_cons_succ] at h
      simp [List.set_cons_succ, ih h]

theorem getD_map_group {l : List Tracker} {k : Nat} (hk : k < l.length) :
    (l.map fun t => t.group).getD k default = (l.getD k default).group := by
  rw [List.getD_eq_getElem _ _ (by simpa using hk), List.getElem_map,
    ← List.getD_eq_getElem _ _ hk]

theorem map_group_swapIdx {l : List Tracker} {b i : Nat}
    (hb : b < l.length) (hi : i < l.length)
    (hg : (l.getD b default).group = (l.getD i default).group) :
    (swapIdx l b i).map (fun t => t.group) = l.map (fun t => t.group) := by
  by_cases hbi : b = i
  · subst hbi
    rw [swapIdx, set_getD_self' rfl, set_getD_self' rfl]
  · rw [swapIdx, List.map_set, List.map_set, hg]
    have h2 : ((l.map fun t => t.group).set b (l.getD i default).group).getD i
        default = (l.getD i default).group := by
      rw [List.getD_eq_getElem _ _ (by simpa using hi),
        List.getElem_set_ne (by omega), List.getElem_map,
        ← List.getD_eq_getElem _ _ hi]
    have h1 : (l.map fun t => t.group).getD b default =
        (l.getD i default).group := by
      rw [getD_map_group hb, hg]
    rw [set_getD_self' h2, set_getD_self' h1]

end LibTorrent
namespace LibTorrent

theorem group_at_beginGroup {l : List Tracker} (hl : Grouped l) {i : Nat}
    (hi : i < l.length) :
    (l.getD (beginGroup l (l.getD i default).group) default).group =
      (l.getD i default).group := by
  have hb_le : beginGroup l (l.getD i default).group ≤ i := beginGroup_le hi
  have hb : beginGroup l (l.getD i default).group < l.length :=
    lt_of_le_of_lt hb_le hi
  refine le_antisymm (grouped_getD_mono hl hb_le hi) ?_
  have := findIdx_pred_true (show l.findIdx
    (fun t => decide ((l.getD i default).group ≤ t.group)) < l.length from hb)
  simpa using this

theorem map_group_promote {l : List Tracker} (hl : Grouped l) {i : Nat}
    (hi : i < l.length) :
    (promote l i).map (fun t => t.group) = l.map (fun t => t.group) := by
  have hb_le : beginGroup l (l.getD i default).group ≤ i := beginGroup_le hi
  exact map_group_swapIdx (lt_of_le_of_lt hb_le hi) hi (group_at_beginGroup hl hi)

theorem drop_len_takeWhile (d : List Tracker) (p : Tracker → Bool) :
    d.drop ((d.takeWhile p).length) = d.dropWhile p := by
  have h := List.drop_left (d.takeWhile p) (d.dropWhile p)
  rwa [List.takeWhile_append_dropWhile] at h

theorem drop_after_takeWhile {l : List Tracker} {b : Nat} {p : Tracker → Bool} :
    l.drop (b + ((l.drop b).takeWhile p).length) = (l.drop b).dropWhile p := by
  rw [← List.drop_drop]
  exact drop_len_takeWhile (l.drop b) p

/-- The two halves of `cycle_group`'s effect, when the run of group-`g`
trackers starting at `begin_group(g)` is `t :: run`: the list decomposes
around that run, and `cycle_group` rotates the run left by one. -/
theorem cycleGroup_decomp {l : List Tracker} {g : Nat} {t : Tracker}
    {run : List Tracker}
    (hseg : (l.drop (beginGroup l g)).takeWhile (fun x => x.group == g) =
      t :: run) :
    l = l.take (beginGroup l g) ++ ((t :: run) ++
        (l.drop (beginGroup l g)).dropWhile (fun x => x.group == g)) ∧
    cycleGroup l g = l.take (beginGroup l g) ++ ((run ++ [t]) ++
        (l.drop (beginGroup l g)).dropWhile (fun x => x.group == g)) := by
  have hd : l.drop (beginGroup l g + (run.length + 1)) =
      (l.drop (beginGroup l g)).dropWhile (fun x => x.group == g) := by
    have h := drop_after_takeWhile (l := l) (b := beginGroup l g)
      (p := fun x => x.group == g)
    rw [hseg] at h
    simpa using h
  constructor
  · have h0 : l.take (beginGroup l g) ++ ((t :: run) ++
        (l.drop (beginGroup l g)).dropWhile (fun x => x.group == g)) = l := by
      rw [← hseg, List.takeWhile_append_dropWhile, List.take_append_drop]
    exact h0.symm
  · rw [cycleGroup, hseg]
    dsimp only
    rw [hd, List.append_assoc]

theorem cycleGroup_map_group (l : List Tracker) (g : Nat) :
    (cycleGroup l g).map (fun t => t.group) = l.map (fun t => t.group) := by
  cases hseg : (l.drop (beginGroup l g)).takeWhile (fun x => x.group == g) with
  | nil => rw [cycleGroup, hseg]
  | cons t run =>
    obtain ⟨hl, hc⟩ := cycleGroup_decomp hseg
    have hrun : ∀ x ∈ t :: run, x.group = g := by
      intro x hx
      have : x ∈ (l.drop (beginGroup l g)).takeWhile (fun x => x.group == g) := by
        rw [hseg]; exact hx
      simpa using List.mem_takeWhile_imp this
    conv_rhs => rw [hl]
    rw [hc]
    simp only [List.map_append]
    congr 1
    congr 1
    have h1 : (run ++ [t]).map (fun x => x.group) =
        List.replicate (run ++ [t]).length g := by
      have hall : ∀ b ∈ (run ++ [t]).map (fun x => x.group), b = g := by
        intro b hb
        obtain ⟨y, hy, rfl⟩ := List.mem_map.mp hb
        rcases List.mem_append.mp hy with hy | hy
        · exact hrun y (List.mem_cons_of_mem _ hy)
        · rw [List.mem_singleton.mp hy]; exact hrun t (List.mem_cons_self _ _)
      have h := List.eq_replicate_of_mem hall
      rwa [List.length_map] at h
    have h2 : (t :: run).map (fun x => x.group) =
        List.replicate (t :: run).length g := by
      have hall : ∀ b ∈ (t :: run).map (fun x => x.group), b = g := by
        intro b hb
        obtain ⟨y, hy, rfl⟩ := List.mem_map.mp hb
        exact hrun y hy
      have h := List.eq_replicate_of_mem hall
      rwa [List.length_map] at h
    rw [← List.map_append, h1, h2]
    simp [Nat.add_comm]

theorem randomize_map_group {s : List Tracker → List Tracker}
    (hs : IsShuffler s) (l : List Tracker) :
    (randomizeGroupEntries s l).map (fun t => t.group) =
      l.map (fun t => t.group) := by
  have main : ∀ (n : Nat) (l : List Tracker), l.length ≤ n →
      (randomizeGroupEntries s l).map (fun t => t.group) =
        l.map (fun t => t.group) := by
    intro n
    induction n with
    | zero =>
      intro l hl
      rw [List.length_eq_zero.mp (Nat.le_zero.mp hl), randomizeGroupEntries]
    | succ n ih =>
      intro l hl
      cases l with
      | nil => rw [randomizeGroupEntries]
      | cons t rest =>
        rw [randomizeGroupEntries]
        have hdw : (rest.dropWhile (fun x => x.group == t.group)).length ≤ n := by
          have h1 := List.IsSuffix.length_le
            (List.dropWhile_suffix (fun x => x.group == t.group) (l := rest))
          simp only [List.length_cons] at hl
          omega
        rw [List.map_append, ih _ hdw]
        have hseg : ∀ x ∈ t :: rest.takeWhile (fun x => x.group == t.group),
            x.group = t.group := by
          intro x hx
          rcases List.mem_cons.mp hx with rfl | hx
          · rfl
          · simpa using List.mem_takeWhile_imp hx
        have hmap_s : (s (t :: rest.takeWhile (fun x => x.group == t.group))).map
            (fun x => x.group) =
            List.replicate (t :: rest.takeWhile (fun x => x.group == t.group)).length
              t.group := by
          have hall : ∀ b ∈ (s (t :: rest.takeWhile
              (fun x => x.group == t.group))).map (fun x => x.group),
              b = t.group := by
            intro b hb
            obtain ⟨y, hy, rfl⟩ := List.mem_map.mp hb
            exact hseg y ((hs _).mem_iff.mp hy)
          have := List.eq_replicate_of_mem hall
          rwa [List.length_map, (hs _).length_eq] at this
        have hmap_seg : (t :: rest.takeWhile (fun x => x.group == t.group)).map
            (fun x => x.group) =
            List.replicate (t :: rest.takeWhile (fun x => x.group == t.group)).length
              t.group := by
          have hall : ∀ b ∈ (t :: rest.takeWhile
              (fun x => x.group == t.group)).map (fun x => x.group),
              b = t.group := by
            intro b hb
            obtain ⟨y, hy, rfl⟩ := List.mem_map.mp hb
            exact hseg y hy
          have := List.eq_replicate_of_mem hall
          rwa [List.length_map] at this
        rw [hmap_s, ← hmap_seg]
        rw [← List.map_append]
        congr 1
        rw [List.cons_append, List.takeWhile_append_dropWhile]
  exact main l.length l (le_refl _)

/-- Every tracker-list operation preserves the grouped invariant. -/
theorem applyOp_grouped {op : TLOp} {l : List Tracker} (hop : GoodOp op)
    (hl : Grouped l) : Grouped (applyOp op l) := by
  cases op with
  | ins g t => exact insertTracker_grouped hl g t
  | prom i =>
    rw [applyOp]
    by_cases hi : i < l.length
    · rw [if_pos hi]
      exact grouped_of_map_eq (map_group_promote hl hi).symm hl
    · rwa [if_neg hi]
  | cyc g => exact grouped_of_map_eq (cycleGroup_map_group l g).symm hl
  | rand s => exact grouped_of_map_eq (randomize_map_group hop l).symm hl

theorem applyOps_grouped {ops : List TLOp} {l : List Tracker}
    (hops : ∀ op ∈ ops, GoodOp op) (hl : Grouped l) :
    Grouped (applyOps ops l) := by
  induction ops generalizing l with
  | nil => exact hl
  | cons op ops ih =>
    rw [applyOps]
    exact ih (fun o ho => hops o (List.mem_cons_of_mem _ ho))
      (applyOp_grouped (hops op (List.mem_cons_self _ _)) hl)

end LibTorrent
namespace LibTorrent

/-! ## Claim C6 -/

/-- C6: any sequence of insert, promote, cycle_group and
randomize_group_entries operations keeps the tracker list sorted by
group: index `i` before index `j` implies group at `i` ≤ group at `j`.
(Shufflers embedded in `randomize_group_entries` operations are assumed
to permute their segment, which is what `std::shuffle` does.) -/
theorem C6_grouped_invariant (ops : List TLOp) (l : List Tracker)
    (hl : Grouped l) (hops : ∀ op ∈ ops, GoodOp op) :
    ∀ i j, i < j → j < (applyOps ops l).length →
      ((applyOps ops l).getD i default).group ≤
        ((applyOps ops l).getD j default).group := by
  intro i j hij hj
  exact grouped_getD_mono (applyOps_grouped hops hl) (le_of_lt hij) hj

/-- Witness for C6 on a concrete operation sequence from the empty list. -/
theorem C6_grouped_invariant_witness :
    ((applyOps c6Ops []).getD 0 default).group ≤
      ((applyOps c6Ops []).getD 1 default).group :=
  C6_grouped_invariant c6Ops [] List.Pairwise.nil
    (by intro op hop; fin_cases hop <;> trivial) 0 1 (by decide) (by decide)

/-! ## Supporting lemmas: rotation of a group run -/

theorem dropWhile_gt {d : List Tracker} {g : Nat}
    (hd : List.Pairwise (fun a b => a.group ≤ b.group) d)
    (hge : ∀ x ∈ d, g ≤ x.group) :
    ∀ x ∈ d.dropWhile (fun t => t.group == g), g < x.group := by
  induction d with
  | nil => simp
  | cons a t ih =>
    rw [List.dropWhile_cons]
    by_cases ha : a.group = g
    · simp only [ha, beq_self_eq_true, if_true]
      exact ih (List.pairwise_cons.mp hd).2
        (fun x hx => hge x (List.mem_cons_of_mem _ hx))
    · have hag : g < a.group :=
        lt_of_le_of_ne (hge a (List.mem_cons_self _ _)) (fun h => ha h.symm)
      simp only [beq_eq_false_iff_ne.mpr ha, if_false]
      intro x hx
      rcases List.mem_cons.mp hx with rfl | hx
      · exact hag
      · exact lt_of_lt_of_le hag ((List.pairwise_cons.mp hd).1 x hx)

theorem findIdx_append_false {q : Tracker → Bool} {pre rest : List Tracker}
    (h : ∀ x ∈ pre, q x = false) :
    (pre ++ rest).findIdx q = pre.length + rest.findIdx q := by
  induction pre with
  | nil => simp
  | cons a t ih =>
    rw [List.cons_append, List.findIdx_cons,
      h a (List.mem_cons_self _ _), cond_false,
      ih (fun x hx => h x (List.mem_cons_of_mem _ hx))]
    simp only [List.length_cons]
    omega

theorem takeWhile_all_append {p : Tracker → Bool} {s r : List Tracker}
    (hs : ∀ x ∈ s, p x = true) (hr : ∀ x ∈ r, p x = false) :
    (s ++ r).takeWhile p = s ∧ (s ++ r).dropWhile p = r := by
  induction s with
  | nil =>
    simp only [List.nil_append]
    cases r with
    | nil => simp
    | cons a t =>
      rw [List.takeWhile_cons, List.dropWhile_cons,
        hr a (List.mem_cons_self _ _)]
      simp
  | cons a t ih =>
    obtain ⟨h1, h2⟩ := ih (fun x hx => hs x (List.mem_cons_of_mem _ hx))
    rw [List.cons_append, List.takeWhile_cons, List.dropWhile_cons,
      hs a (List.mem_cons_self _ _)]
    simp [h1, h2]

theorem rotate_one_cons (t : Tracker) (run : List Tracker) :
    (t :: run).rotate 1 = run ++ [t] := by
  rw [List.rotate_cons_succ, List.rotate_zero]

/-- One `cycle_group` on a list decomposed as
below-group ++ group-run ++ above-group rotates the run left by one. -/
theorem cycleGroup_parts {pre seg post : List Tracker} {g : Nat}
    (hpre : ∀ x ∈ pre, x.group < g) (hseg : ∀ x ∈ seg, x.group = g)
    (hpost : ∀ x ∈ post, g < x.group) (hne : seg ≠ []) :
    cycleGroup (pre ++ (seg ++ post)) g = pre ++ (seg.rotate 1 ++ post) := by
  obtain ⟨t, run, rfl⟩ : ∃ t run, seg = t :: run := by
    cases seg with
    | nil => exact absurd rfl hne
    | cons t run => exact ⟨t, run, rfl⟩
  have hb : beginGroup (pre ++ (t :: run ++ post)) g = pre.length := by
    rw [beginGroup, findIdx_append_false
      (fun x hx => by simpa using Nat.not_le.mpr (hpre x hx))]
    rw [List.cons_append, List.findIdx_cons]
    have : g ≤ t.group := le_of_eq (hseg t (List.mem_cons_self _ _)).symm
    simp [this]
  have hdrop : (pre ++ (t :: run ++ post)).drop pre.length = t :: run ++ post :=
    List.drop_left pre _
  have htw := takeWhile_all_append
    (p := fun x => x.group == g) (s := t :: run) (r := post)
    (fun x hx => by simpa using hseg x hx)
    (fun x hx => by simpa using Nat.ne_of_gt (hpost x hx))
  have hseg' : ((pre ++ (t :: run ++ post)).drop
      (beginGroup (pre ++ (t :: run ++ post)) g)).takeWhile
      (fun x => x.group == g) = t :: run := by
    rw [hb, hdrop]
    exact htw.1
  obtain ⟨_, hc⟩ := cycleGroup_decomp hseg'
  rw [hc, hb, hdrop, htw.2, List.take_left, rotate_one_cons,
    List.append_assoc]

theorem cycleGroup_iter {pre post : List Tracker} {g : Nat}
    (hpre : ∀ x ∈ pre, x.group < g) (hpost : ∀ x ∈ post, g < x.group) :
    ∀ (k : Nat) (seg : List Tracker), (∀ x ∈ seg, x.group = g) → seg ≠ [] →
      (fun l => cycleGroup l g)^[k] (pre ++ (seg ++ post)) =
        pre ++ (seg.rotate k ++ post) := by
  intro k
  induction k with
  | zero => intro seg _ _; simp
  | succ n ih =>
    intro seg hseg hne
    rw [Function.iterate_succ_apply]
    show (fun l => cycleGroup l g)^[n] (cycleGroup (pre ++ (seg ++ post)) g) = _
    rw [cycleGroup_parts hpre hseg hpost hne]
    have h1 : ∀ x ∈ seg.rotate 1, x.group = g :=
      fun x hx => hseg x (List.mem_rotate.mp hx)
    have h2 : seg.rotate 1 ≠ [] := by
      intro hcon
      apply hne
      have := congrArg List.length hcon
      rw [List.length_rotate] at this
      exact List.length_eq_zero.mp this
    rw [ih (seg.rotate 1) h1 h2, List.rotate_rotate, Nat.add_comm]

/-! ## Claim C9 -/

/-- C9: on a grouped tracker list, applying `cycle_group(g)` as many
times as there are trackers in group `g` restores the whole list. -/
theorem C9_cycle_group_identity (l : List Tracker) (g : Nat)
    (hl : Grouped l) :
    (fun l => cycleGroup l g)^[l.countP (fun t => t.group == g)] l = l := by
  cases hseg : (l.drop (beginGroup l g)).takeWhile (fun x => x.group == g) with
  | nil =>
    have hdw : (l.drop (beginGroup l g)).dropWhile (fun x => x.group == g) =
        l.drop (beginGroup l g) := by
      have h := List.takeWhile_append_dropWhile
        (fun x : Tracker => x.group == g) (l.drop (beginGroup l g))
      rwa [hseg, List.nil_append] at h
    have hgt : ∀ x ∈ l.drop (beginGroup l g), g < x.group := by
      intro x hx
      rw [← hdw] at hx
      exact dropWhile_gt (hl.sublist (List.drop_sublist _ _))
        (fun y hy => mem_drop_beginGroup_le hl hy) x hx
    have hc : l.countP (fun t => t.group == g) = 0 := by
      rw [List.countP_eq_zero]
      intro a ha
      rw [← List.take_append_drop (beginGroup l g) l] at ha
      rcases List.mem_append.mp ha with ha | ha
      · simpa using Nat.ne_of_lt (mem_take_beginGroup_lt ha)
      · simpa using Nat.ne_of_gt (hgt a ha)
    rw [hc, Function.iterate_zero_apply]
  | cons t run =>
    obtain ⟨hl_eq, _⟩ := cycleGroup_decomp hseg
    have hseg_all : ∀ x ∈ t :: run, x.group = g := by
      intro x hx
      have hx' : x ∈ (l.drop (beginGroup l g)).takeWhile
          (fun x => x.group == g) := by rw [hseg]; exact hx
      simpa using List.mem_takeWhile_imp hx'
    have hpre : ∀ x ∈ l.take (beginGroup l g), x.group < g :=
      fun x hx => mem_take_beginGroup_lt hx
    have hpost : ∀ x ∈ (l.drop (beginGroup l g)).dropWhile
        (fun x => x.group == g), g < x.group :=
      dropWhile_gt (hl.sublist (List.drop_sublist _ _))
        (fun y hy => mem_drop_beginGroup_le hl hy)
    have hcount : l.countP (fun x => x.group == g) = (t :: run).length := by
      conv_lhs => rw [hl_eq]
      rw [List.countP_append, List.countP_append]
      rw [List.countP_eq_zero.mpr
        (fun a ha => by simpa using Nat.ne_of_lt (hpre a ha))]
      rw [List.countP_eq_length.mpr
        (fun a ha => by simpa using hseg_all a ha)]
      rw [List.countP_eq_zero.mpr
        (fun a ha => by simpa using Nat.ne_of_gt (hpost a ha))]
      omega
    calc (fun l => cycleGroup l g)^[l.countP (fun t => t.group == g)] l
        = (fun l => cycleGroup l g)^[(t :: run).length]
            (l.take (beginGroup l g) ++ ((t :: run) ++
              (l.drop (beginGroup l g)).dropWhile (fun x => x.group == g))) := by
          rw [← hl_eq, hcount]
      _ = l.take (beginGroup l g) ++ (((t :: run).rotate (t :: run).length) ++
            (l.drop (beginGroup l g)).dropWhile (fun x => x.group == g)) :=
          cycleGroup_iter hpre hpost _ _ hseg_all (List.cons_ne_nil _ _)
      _ = l := by rw [List.rotate_length, ← hl_eq]

/-- Witness for C9: a two-tracker group cycles back after two steps. -/
theorem C9_cycle_group_identity_witness :
    (fun l => cycleGroup l 0)^[c9L.countP (fun t => t.group == 0)] c9L = c9L :=
  C9_cycle_group_identity c9L 0 (by rw [Grouped]; decide)

end LibTorrent
namespace LibTorrent

/-! ## Supporting lemmas: sorted deduplication and list surgery -/

theorem chain_lt_eraseAdjDupFrom {l : List Nat} :
    ∀ {prev : Nat}, List.Chain (· ≤ ·) prev l →
      List.Chain (· < ·) prev (eraseAdjDupFrom prev l) := by
  induction l with
  | nil => intro prev _; exact List.Chain.nil
  | cons b rest ih =>
    intro prev h
    rw [List.chain_cons] at h
    obtain ⟨hpb, hrest⟩ := h
    rw [eraseAdjDupFrom]
    by_cases he : prev = b
    · rw [if_pos he]
      exact ih (he ▸ hrest)
    · rw [if_neg he]
      exact List.Chain.cons (lt_of_le_of_ne hpb he) (ih hrest)

theorem sorted_lt_eraseAdjDup {l : List Nat} (h : List.Sorted (· ≤ ·) l) :
    List.Sorted (· < ·) (eraseAdjDup l) := by
  cases l with
  | nil => exact List.Pairwise.nil
  | cons a rest =>
    rw [eraseAdjDup]
    have hchain : List.Chain (· ≤ ·) a rest := List.chain_iff_pairwise.mpr h
    exact List.chain_iff_pairwise.mp (chain_lt_eraseAdjDupFrom hchain)

theorem processAddrs_sorted (addrs : List Nat) :
    List.Sorted (· ≤ ·) (processAddrs addrs) :=
  (sorted_lt_eraseAdjDup (List.sorted_insertionSort _ _)).imp le_of_lt

theorem processAddrs_nodup (addrs : List Nat) : (processAddrs addrs).Nodup :=
  (sorted_lt_eraseAdjDup (List.sorted_insertionSort _ _)).imp ne_of_lt

theorem getD_set_self_lt {l : List Tracker} {i : Nat} (v : Tracker)
    (hi : i < l.length) : (l.set i v).getD i default = v := by
  rw [List.getD_eq_getElem _ _ (by simpa using hi)]
  exact List.getElem_set_self ..

theorem getD_set_other {l : List Tracker} {i k : Nat} (v : Tracker)
    (hki : k ≠ i) : (l.set i v).getD k default = l.getD k default := by
  by_cases hk : k < l.length
  · rw [List.getD_eq_getElem _ _ (by simpa using hk),
      List.getD_eq_getElem _ _ hk]
    exact List.getElem_set_ne (Ne.symm hki) (by simpa using hk)
  · have hk' : l.length ≤ k := Nat.not_lt.mp hk
    rw [List.getD_eq_default _ _ hk', List.getD_eq_default _ _ (by simpa using hk')]

theorem swapIdx_length (l : List Tracker) (i j : Nat) :
    (swapIdx l i j).length = l.length := by
  simp [swapIdx]

theorem swapIdx_getD_fst {l : List Tracker} {b i : Nat} (hb : b < l.length) :
    (swapIdx l b i).getD b default = l.getD i default := by
  by_cases hbi : b = i
  · subst hbi
    rw [swapIdx, List.set_set]
    exact getD_set_self_lt _ hb
  · rw [swapIdx, getD_set_other _ hbi, getD_set_self_lt _ hb]

theorem beginGroup_map (l : List Tracker) (g : Nat) :
    beginGroup l g = (l.map (fun t => t.group)).findIdx (fun x => decide (g ≤ x)) := by
  induction l with
  | nil => rfl
  | cons a t ih =>
    rw [beginGroup, List.map_cons, List.findIdx_cons, List.findIdx_cons]
    rw [beginGroup] at ih
    rw [ih]

theorem beginGroup_eq_of_map_eq {l l' : List Tracker} {g : Nat}
    (h : l.map (fun t => t.group) = l'.map (fun t => t.group)) :
    beginGroup l g = beginGroup l' g := by
  rw [beginGroup_map, beginGroup_map, h]

/-! ## Claim C3 -/

/-- C3: on a grouped list, for a tracker (index `i`) that is in the list
and not busy, `receive_success` succeeds and: the tracker is promoted to
the front of its group (position `begin_group` of its group, unchanged by
the call) carrying the updated statistics — `success_time_last = now`,
incremented `success_counter`, `failed_counter = 0`, `latest_sum_peers` =
size of the de-duplicated address list, and `latest_new_peers` = the
value returned by the success slot on that list; every other position is
as left by the promoting swap; and the address list handed to the slot is
sorted and duplicate-free. -/
theorem C3_receive_success_spec (l : List Tracker) (i : Nat) (addrs : List Nat)
    (f : List Nat → Nat) (now : Nat) (hi : i < l.length)
    (hbusy : (l.getD i default).busy = false) (hl : Grouped l) :
    ∃ l', receive_success l i addrs (some f) now = Except.ok l' ∧
      l'.length = l.length ∧
      l'.getD (beginGroup l (l.getD i default).group) default =
        { l.getD i default with
          successTimeLast := now,
          successCounter := (l.getD i default).successCounter + 1,
          failedCounter := 0,
          latestSumPeers := (processAddrs addrs).length,
          latestNewPeers := f (processAddrs addrs) } ∧
      beginGroup l' (l.getD i default).group =
        beginGroup l (l.getD i default).group ∧
      (∀ k, k ≠ beginGroup l (l.getD i default).group →
        l'.getD k default =
          (swapIdx l (beginGroup l (l.getD i default).group) i).getD k default) ∧
      List.Sorted (· ≤ ·) (processAddrs addrs) ∧
      (processAddrs addrs).Nodup := by
  have hb_le : beginGroup l (l.getD i default).group ≤ i := beginGroup_le hi
  have hb : beginGroup l (l.getD i default).group < l.length :=
    lt_of_le_of_lt hb_le hi
  rw [receive_success, if_pos hi]
  simp only [hbusy, Bool.false_eq_true, if_false]
  have pf : beginGroup l (l.getD i default).group <
      (swapIdx l (beginGroup l (l.getD i default).group) i).length := by
    rw [swapIdx_length]; exact hb
  refine ⟨_, rfl, ?_, ?_, ?_, ?_, processAddrs_sorted addrs,
    processAddrs_nodup addrs⟩
  · simp [List.length_set, swapIdx_length]
  · rw [getD_set_self_lt _ pf, List.set_set,
      getD_set_self_lt _ pf, swapIdx_getD_fst hb]
    dsimp only
    rw [hbusy]
  · refine beginGroup_eq_of_map_eq ?_
    rw [getD_set_self_lt _ pf, List.set_set, List.map_set]
    dsimp only
    rw [swapIdx_getD_fst hb,
      map_group_swapIdx hb hi (group_at_beginGroup hl hi)]
    refine set_getD_self' ?_
    rw [getD_map_group hb, group_at_beginGroup hl hi]
  · intro k hk
    rw [getD_set_other _ hk, getD_set_other _ hk]

end LibTorrent
namespace LibTorrent

/-- Witness for C3: the second tracker of a two-tracker group is promoted
to the front with the updated statistics. -/
theorem C3_receive_success_spec_witness :
    ∃ l', receive_success c9L 1 [5, 3, 5] (some List.length) 99 =
        Except.ok l' ∧
      l'.getD 0 default = { c9L.getD 1 default with
        successTimeLast := 99, successCounter := 1, failedCounter := 0,
        latestSumPeers := 2, latestNewPeers := 2 } := by
  obtain ⟨l', h1, _, h3, _, _, _, _⟩ :=
    C3_receive_success_spec c9L 1 [5, 3, 5] List.length 99 (by decide)
      (by decide) (by rw [Grouped]; decide)
  refine ⟨l', h1, ?_⟩
  have hb0 : beginGroup c9L (c9L.getD 1 default).group = 0 := by decide
  rw [hb0] at h3
  have hp : processAddrs [5, 3, 5] = [3, 5] := by decide
  rw [hp] at h3
  exact h3

end LibTorrent
namespace LibTorrent

/-! ## Supporting lemmas: the find_next_to_request scan -/

theorem firstIdx_cons_true {q : Tracker → Bool} {t : Tracker}
    {rest : List Tracker} (h : q t = true) :
    firstIdx q (t :: rest) = some 0 := by
  rw [firstIdx, if_pos h]

theorem firstIdx_cons_false {q : Tracker → Bool} {t : Tracker}
    {rest : List Tracker} (h : q t = false) :
    firstIdx q (t :: rest) = (firstIdx q rest).map (· + 1) := by
  rw [firstIdx, if_neg (by simp [h])]

theorem fnrRegion_cons_succ {t : Tracker} {rest : List Tracker} {k : Nat}
    (hpred : (t.canRequestState && t.failedCounter == 0) = false) :
    fnrRegion (t :: rest) (k + 1) ↔ fnrRegion rest k := by
  unfold fnrRegion
  rw [firstIdx_cons_false hpred]
  constructor
  · rintro ⟨h1, h2, h3, h4⟩
    refine ⟨by simpa using h1, by simpa using h2, by simpa using h3, ?_⟩
    intro b hb
    have := h4 (b + 1) (by rw [hb]; rfl)
    omega
  · rintro ⟨h1, h2, h3, h4⟩
    refine ⟨by simpa using h1, by simpa using h2, by simpa using h3, ?_⟩
    intro b hb
    rcases hbo : firstIdx (fun x => x.canRequestState && x.failedCounter == 0)
        rest with _ | b'
    · rw [hbo] at hb; simp at hb
    · rw [hbo] at hb
      simp at hb
      have hb' : b = b' + 1 := by omega
      have := h4 b' hbo
      omega

theorem fnrRegion_cons_zero {t : Tracker} {rest : List Tracker}
    (hk : fnrRegion (t :: rest) 0) :
    t.canRequestState = true ∧ t.failedCounter ≠ 0 := by
  obtain ⟨_, h2, h3, _⟩ := hk
  exact ⟨by simpa using h2, by simpa using h3⟩

theorem fnrRegion_zero_of {t : Tracker} {rest : List Tracker}
    (hreq : t.canRequestState = true) (hfc : t.failedCounter ≠ 0) :
    fnrRegion (t :: rest) 0 := by
  have hpred : (t.canRequestState && t.failedCounter == 0) = false := by
    simp [hfc]
  refine ⟨by simp, by simpa using hreq, by simpa using hfc, ?_⟩
  intro b hb
  rw [firstIdx_cons_false hpred] at hb
  rcases hbo : firstIdx (fun x => x.canRequestState && x.failedCounter == 0)
      rest with _ | b'
  · rw [hbo] at hb; simp at hb
  · rw [hbo] at hb
    simp at hb
    omega

/-- Shifting the loop invariant across a head tracker that the scan does
not adopt as preferred: one that is not requestable, or has failures but
does not improve on the preferred `failed_time_next`. -/
theorem FnrLoopInv_shift {t : Tracker} {rest : List Tracker}
    {j p pftn r : Nat}
    (hpred : (t.canRequestState && t.failedCounter == 0) = false)
    (h0 : t.canRequestState = true → t.failedCounter ≠ 0 →
      pftn ≤ t.failedTimeNext)
    (h : FnrLoopInv rest (j + 1) p pftn r) :
    FnrLoopInv (t :: rest) j p pftn r := by
  unfold FnrLoopInv at h ⊢
  rcases h with ⟨hr, hmin, hb⟩ | ⟨k, hk, hr, hlt, hmin, hstrict, hb⟩ |
    ⟨b, hbeq, hr, hlt, hall⟩
  · left
    refine ⟨hr, ?_, ?_⟩
    · intro k hk
      cases k with
      | zero =>
        obtain ⟨hreq, hfc⟩ := fnrRegion_cons_zero hk
        simpa using h0 hreq hfc
      | succ k' =>
        rw [List.getD_cons_succ]
        exact hmin k' ((fnrRegion_cons_succ hpred).mp hk)
    · intro b hbeq
      rw [firstIdx_cons_false hpred] at hbeq
      rcases hbo : firstIdx (fun x => x.canRequestState && x.failedCounter == 0)
          rest with _ | b'
      · rw [hbo] at hbeq; simp at hbeq
      · rw [hbo] at hbeq
        simp at hbeq
        have : b = b' + 1 := by omega
        subst this
        rw [List.getD_cons_succ]
        exact hb b' hbo
  · right; left
    refine ⟨k + 1, (fnrRegion_cons_succ hpred).mpr hk, by omega, ?_, ?_, ?_, ?_⟩
    · rw [List.getD_cons_succ]; exact hlt
    · intro k' hk'
      cases k' with
      | zero =>
        obtain ⟨hreq, hfc⟩ := fnrRegion_cons_zero hk'
        rw [List.getD_cons_succ, List.getD_cons_zero]
        exact le_trans (le_of_lt (lt_of_lt_of_le hlt (h0 hreq hfc))) (le_refl _)
      | succ k'' =>
        rw [List.getD_cons_succ, List.getD_cons_succ]
        exact hmin k'' ((fnrRegion_cons_succ hpred).mp hk')
    · intro k' hk'lt hk'
      cases k' with
      | zero =>
        obtain ⟨hreq, hfc⟩ := fnrRegion_cons_zero hk'
        rw [List.getD_cons_succ, List.getD_cons_zero]
        exact lt_of_lt_of_le hlt (h0 hreq hfc)
      | succ k'' =>
        rw [List.getD_cons_succ, List.getD_cons_succ]
        exact hstrict k'' (by omega) ((fnrRegion_cons_succ hpred).mp hk')
    · intro b hbeq
      rw [firstIdx_cons_false hpred] at hbeq
      rcases hbo : firstIdx (fun x => x.canRequestState && x.failedCounter == 0)
          rest with _ | b'
      · rw [hbo] at hbeq; simp at hbeq
      · rw [hbo] at hbeq
        simp at hbeq
        have : b = b' + 1 := by omega
        subst this
        rw [List.getD_cons_succ, List.getD_cons_succ]
        exact hb b' hbo
  · right; right
    rw [firstIdx_cons_false hpred, hbeq]
    refine ⟨b + 1, rfl, by omega, ?_, ?_⟩
    · rw [List.getD_cons_succ]; exact hlt
    · intro k hk
      cases k with
      | zero =>
        obtain ⟨hreq, hfc⟩ := fnrRegion_cons_zero hk
        rw [List.getD_cons_succ, List.getD_cons_zero]
        exact lt_of_lt_of_le hlt (h0 hreq hfc)
      | succ k'' =>
        rw [List.getD_cons_succ, List.getD_cons_succ]
        exact hall k'' ((fnrRegion_cons_succ hpred).mp hk)

/-- Shifting the loop invariant across a head tracker with failures that
the scan adopts as the new preferred tracker. -/
theorem FnrLoopInv_take {t : Tracker} {rest : List Tracker} {j p pftn r : Nat}
    (hreq : t.canRequestState = true) (hfc : t.failedCounter ≠ 0)
    (hlt : t.failedTimeNext < pftn)
    (h : FnrLoopInv rest (j + 1) j t.failedTimeNext r) :
    FnrLoopInv (t :: rest) j p pftn r := by
  have hpred : (t.canRequestState && t.failedCounter == 0) = false := by
    simp [hfc]
  unfold FnrLoopInv at h ⊢
  rcases h with ⟨hr, hmin, hb⟩ | ⟨k, hk, hr, hklt, hmin, hstrict, hb⟩ |
    ⟨b, hbeq, hr, hblt, hall⟩
  · -- the head stays preferred: it wins the region
    right; left
    refine ⟨0, fnrRegion_zero_of hreq hfc, by omega, by simpa using hlt,
      ?_, ?_, ?_⟩
    · intro k' hk'
      cases k' with
      | zero => simp
      | succ k'' =>
        rw [List.getD_cons_zero, List.getD_cons_succ]
        exact hmin k'' ((fnrRegion_cons_succ hpred).mp hk')
    · intro k' hk'lt _
      omega
    · intro b hbeq
      rw [firstIdx_cons_false hpred] at hbeq
      rcases hbo : firstIdx (fun x => x.canRequestState && x.failedCounter == 0)
          rest with _ | b'
      · rw [hbo] at hbeq; simp at hbeq
      · rw [hbo] at hbeq
        simp at hbeq
        have : b = b' + 1 := by omega
        subst this
        rw [List.getD_cons_succ, List.getD_cons_zero]
        exact hb b' hbo
  · -- a later failed tracker wins
    right; left
    refine ⟨k + 1, (fnrRegion_cons_succ hpred).mpr hk, by omega, ?_, ?_, ?_, ?_⟩
    · rw [List.getD_cons_succ]
      exact lt_trans hklt hlt
    · intro k' hk'
      cases k' with
      | zero =>
        rw [List.getD_cons_succ, List.getD_cons_zero]
        exact le_of_lt hklt
      | succ k'' =>
        rw [List.getD_cons_succ, List.getD_cons_succ]
        exact hmin k'' ((fnrRegion_cons_succ hpred).mp hk')
    · intro k' hk'lt hk'
      cases k' with
      | zero =>
        rw [List.getD_cons_succ, List.getD_cons_zero]
        exact hklt
      | succ k'' =>
        rw [List.getD_cons_succ, List.getD_cons_succ]
        exact hstrict k'' (by omega) ((fnrRegion_cons_succ hpred).mp hk')
    · intro b hbeq
      rw [firstIdx_cons_false hpred] at hbeq
      rcases hbo : firstIdx (fun x => x.canRequestState && x.failedCounter == 0)
          rest with _ | b'
      · rw [hbo] at hbeq; simp at hbeq
      · rw [hbo] at hbeq
        simp at hbeq
        have : b = b' + 1 := by omega
        subst this
        rw [List.getD_cons_succ, List.getD_cons_succ]
        exact hb b' hbo
  · -- the stopping tracker wins
    right; right
    rw [firstIdx_cons_false hpred, hbeq]
    refine ⟨b + 1, rfl, by omega, ?_, ?_⟩
    · rw [List.getD_cons_succ]
      exact lt_trans hblt hlt
    · intro k hk
      cases k with
      | zero =>
        rw [List.getD_cons_succ, List.getD_cons_zero]
        exact hblt
      | succ k'' =>
        rw [List.getD_cons_succ, List.getD_cons_succ]
        exact hall k'' ((fnrRegion_cons_succ hpred).mp hk)

/-- The scan of `find_next_to_request` satisfies its declarative
characterisation. -/
theorem fnrLoop_spec (rest : List Tracker) :
    ∀ j p pftn, FnrLoopInv rest j p pftn (fnrLoop rest j p pftn) := by
  induction rest with
  | nil =>
    intro j p pftn
    left
    refine ⟨rfl, ?_, ?_⟩
    · intro k hk
      exact absurd hk.1 (by simp)
    · intro b hb
      simp [firstIdx] at hb
  | cons t rest ih =>
    intro j p pftn
    rw [fnrLoop]
    by_cases hreq : t.canRequestState = false
    · rw [if_pos hreq]
      exact FnrLoopInv_shift (by simp [hreq])
        (fun hr _ => absurd hr (by simp [hreq])) (ih (j + 1) p pftn)
    · rw [if_neg hreq]
      have hreq' : t.canRequestState = true := by
        simpa using hreq
      by_cases hfc : t.failedCounter ≠ 0
      · rw [if_pos hfc]
        by_cases hlt : t.failedTimeNext < pftn
        · rw [if_pos hlt]
          exact FnrLoopInv_take hreq' hfc hlt (ih (j + 1) j t.failedTimeNext)
        · rw [if_neg hlt]
          exact FnrLoopInv_shift (by simp [hfc])
            (fun _ _ => Nat.not_lt.mp hlt) (ih (j + 1) p pftn)
      · rw [if_neg hfc]
        have hfc0 : t.failedCounter = 0 := not_ne_iff.mp hfc
        have hpt : (t.canRequestState && t.failedCounter == 0) = true := by
          simp [hreq', hfc0]
        by_cases hstn : t.successTimeNext < pftn
        · rw [if_pos hstn]
          right; right
          refine ⟨0, firstIdx_cons_true hpt, by omega, by simpa using hstn, ?_⟩
          intro k hk
          have := hk.2.2.2 0 (firstIdx_cons_true hpt)
          omega
        · rw [if_neg hstn]
          left
          refine ⟨rfl, ?_, ?_⟩
          · intro k hk
            have := hk.2.2.2 0 (firstIdx_cons_true hpt)
            omega
          · intro b hbeq
            rw [firstIdx_cons_true hpt] at hbeq
            have hb0 : b = 0 := by
              injection hbeq with h
              omega
            subst hb0
            simpa using hstn

end LibTorrent
namespace LibTorrent

/-! ## Claim C1 -/

/-- C1 as stated is false: with two requestable never-failed trackers,
`find_next_to_request` returns the first one immediately even though the
second has a strictly earlier `success_time_next`. -/
theorem C1_counterexample :
    ¬ (∀ (l : List Tracker) (r : Nat), find_next_to_request l = some r →
        (l.getD r default).failedCounter = 0 →
        ∀ j, j < l.length → (l.getD j default).canRequestState = true →
          (l.getD j default).failedCounter = 0 →
          (l.getD r default).successTimeNext ≤
            (l.getD j default).successTimeNext) := by
  intro h
  exact absurd
    (h c1CtrL 0 (by decide) (by decide) 1 (by decide) (by decide) (by decide))
    (by decide)

/-- C1 amended: `find_next_to_request` returns `end` iff no tracker at or
after the iterator is requestable; it returns the first requestable
tracker at once when that tracker has no failures; otherwise the scan
over the remainder satisfies `FnrLoopInv`: the result is either the first
requestable tracker itself (nothing later improves on its
`failed_time_next`), or the earliest-positioned failed requestable
tracker with the strictly least `failed_time_next` among those before the
scan's stopping point, or the stopping point itself — the first later
requestable tracker without failures — exactly when its
`success_time_next` is strictly smaller than every `failed_time_next`
the scan has kept; trackers beyond the stopping point are never
considered. -/
theorem C1_find_next_spec (l : List Tracker) :
    (find_next_to_request l = none ↔
      firstIdx (fun t => t.canRequestState) l = none) ∧
    (∀ i, firstIdx (fun t => t.canRequestState) l = some i →
      ((l.getD i default).failedCounter = 0 →
        find_next_to_request l = some i) ∧
      ((l.getD i default).failedCounter ≠ 0 →
        ∃ r, find_next_to_request l = some r ∧
          FnrLoopInv (l.drop (i + 1)) (i + 1) i
            (l.getD i default).failedTimeNext r)) := by
  constructor
  · unfold find_next_to_request
    cases h : firstIdx (fun t => t.canRequestState) l with
    | none => simp
    | some i =>
      dsimp only
      split <;> simp
  · intro i hi
    unfold find_next_to_request
    rw [hi]
    dsimp only
    constructor
    · intro h0
      rw [if_pos h0]
    · intro hne
      rw [if_neg hne]
      exact ⟨_, rfl, fnrLoop_spec _ _ _ _⟩

/-- Witness for the amended C1: on `c1L` the failed first tracker starts
the scan and the never-failed second tracker wins it. -/
theorem C1_find_next_spec_witness :
    ∃ r, find_next_to_request c1L = some r ∧
      FnrLoopInv (c1L.drop 1) 1 0 100 r := by
  have h := ((C1_find_next_spec c1L).2 0 (by decide)).2 (by decide)
  exact h

end LibTorrent
